import Mathlib

/-!
# Verification of the `rebench` benchmark-tracking tool

Shallow embedding of the decision logic of `rebench.go` (and the
non-Windows `convertpath_other.go`):

* Go maps `map[string]uint64` / `map[string]map[string]uint64` become
  association lists with unique keys (`AMap`); Go map reads/writes become
  `mapLookup` / `mapInsert`.
* `uint64` timings become `Nat` (the parser rejects values ≥ 2^64, so no
  wraparound ever occurs on parsed timings).
* `float64` ratio comparisons (`float64(speed)/float64(oldSpeed)` against a
  tolerance) are modelled with exact rationals, with the two zero-denominator
  cases (`+Inf`, `NaN`) treated explicitly as IEEE 754 prescribes for the
  comparisons the code performs.
* The functions `compare`, `tabAlign`, `findGosrc` and the output-parsing
  loop of `runAndStoreBenches` are translated one branch at a time; the
  in-place mutation of the `oldBenches` map inside `compare` is made explicit
  by threading the map through the loops.
-/

/-- Association-list model of a Go `map[string]α`. -/
abbrev AMap (α : Type) := List (String × α)

/-- Go map read `m[k]`: value of the first entry with key `k`. -/
def mapLookup {α : Type} (m : AMap α) (k : String) : Option α :=
  match m with
  | [] => none
  | (k', v) :: rest => if k' = k then some v else mapLookup rest k

/-- Go map write `m[k] = v`: rebind the key in place if present, append a new
binding otherwise. -/
def mapInsert {α : Type} : AMap α → String → α → AMap α
  | [], k, v => [(k, v)]
  | (a, b) :: rest, k, v =>
    if a = k then (k, v) :: rest else (a, b) :: mapInsert rest k v

/-- The keys of an association list are pairwise distinct: every Go map
satisfies this. -/
def KeysNodup {α : Type} (m : AMap α) : Prop := (m.map Prod.fst).Nodup

instance {α : Type} (m : AMap α) : Decidable (KeysNodup m) := by
  unfold KeysNodup; infer_instance

theorem mapLookup_eq_some_mem {α : Type} {m : AMap α} {k : String} {v : α}
    (h : mapLookup m k = some v) : (k, v) ∈ m := by
  induction m with
  | nil => simp [mapLookup] at h
  | cons p rest ih =>
    obtain ⟨k', v'⟩ := p
    by_cases hk : k' = k
    · subst hk
      simp [mapLookup] at h
      subst h
      exact List.mem_cons_self _ _
    · simp [mapLookup, hk] at h
      exact List.mem_cons_of_mem _ (ih h)

theorem mapLookup_eq_none_iff {α : Type} {m : AMap α} {k : String} :
    mapLookup m k = none ↔ k ∉ m.map Prod.fst := by
  induction m with
  | nil => simp [mapLookup]
  | cons p rest ih =>
    obtain ⟨k', v'⟩ := p
    by_cases hk : k' = k
    · subst hk; simp [mapLookup]
    · simp [mapLookup, hk, ih, Ne.symm hk]

theorem mem_mapLookup_of_nodup {α : Type} {m : AMap α} {k : String} {v : α}
    (hm : KeysNodup m) (h : (k, v) ∈ m) : mapLookup m k = some v := by
  induction m with
  | nil => simp at h
  | cons p rest ih =>
    obtain ⟨k', v'⟩ := p
    unfold KeysNodup at hm
    simp only [List.map_cons, List.nodup_cons] at hm
    rcases List.mem_cons.mp h with heq | hmem
    · cases heq
      simp [mapLookup]
    · have hk : k' ≠ k := by
        intro he
        subst he
        exact hm.1 (List.mem_map.mpr ⟨(k', v), hmem, rfl⟩)
      simp only [mapLookup, hk, if_false]
      exact ih hm.2 hmem

theorem mapLookup_isSome_mem_keys {α : Type} {m : AMap α} {k : String}
    (h : (mapLookup m k).isSome) : k ∈ m.map Prod.fst := by
  by_contra hk
  rw [← mapLookup_eq_none_iff] at hk
  rw [hk] at h
  simp at h

theorem mapLookup_mapInsert_self {α : Type} (m : AMap α) (k : String) (v : α) :
    mapLookup (mapInsert m k v) k = some v := by
  induction m with
  | nil => simp [mapInsert, mapLookup]
  | cons p rest ih =>
    obtain ⟨a, b⟩ := p
    by_cases ha : a = k
    · subst ha; simp [mapInsert, mapLookup]
    · simp [mapInsert, mapLookup, ha, ih]

theorem mapLookup_mapInsert_ne {α : Type} (m : AMap α) (k k' : String) (v : α)
    (hne : k ≠ k') : mapLookup (mapInsert m k v) k' = mapLookup m k' := by
  induction m with
  | nil => simp [mapInsert, mapLookup, hne]
  | cons p rest ih =>
    obtain ⟨a, b⟩ := p
    by_cases ha : a = k
    · subst ha; simp [mapInsert, mapLookup, hne]
    · by_cases ha' : a = k'
      · subst ha'; simp [mapInsert, mapLookup, ha]
      · simp [mapInsert, mapLookup, ha, ha', ih]

theorem keys_mapInsert {α : Type} (m : AMap α) (k : String) (v : α) :
    (mapInsert m k v).map Prod.fst =
      if k ∈ m.map Prod.fst then m.map Prod.fst else m.map Prod.fst ++ [k] := by
  induction m with
  | nil => simp [mapInsert]
  | cons p rest ih =>
    obtain ⟨a, b⟩ := p
    by_cases ha : a = k
    · subst ha; simp [mapInsert]
    · have hka : ¬(k = a) := fun h => ha h.symm
      simp only [mapInsert, ha, if_false, List.map_cons, ih]
      by_cases hk : k ∈ rest.map Prod.fst <;> simp [hk, hka]

theorem keysNodup_mapInsert {α : Type} (m : AMap α) (k : String) (v : α)
    (hm : KeysNodup m) : KeysNodup (mapInsert m k v) := by
  unfold KeysNodup at *
  rw [keys_mapInsert]
  by_cases hk : k ∈ m.map Prod.fst
  · simpa [hk] using hm
  · simp only [hk, if_false]
    refine List.nodup_append.mpr ⟨hm, List.nodup_singleton k, ?_⟩
    intro x hx hx'
    simp only [List.mem_singleton] at hx'
    subst hx'
    exact hk hx

/-!
## The regression engine: `compare` (rebench.go lines 125-172)
-/

/-- Per-benchmark classification; the five cases correspond to the five
`delta +=` sites of `compare` (Missing at line 138, New at lines 146-149 and
165-167, and the three outcomes of the ratio test at lines 151-159). -/
inductive Status : Type
  | New : Status
  | Missing : Status
  | Regressed : Status
  | Improved : Status
  | Unchanged : Status
deriving DecidableEq, Repr

/-- One row of the delta table: benchmark name, current timing (absent for a
Missing row), baseline timing (absent for a New row), classification.  The
textual rendering (`%d`/`%f` formatting and the header line) is not modelled;
each row corresponds to one `delta += fmt.Sprintf(...)` in the source. -/
structure DeltaRow : Type where
  name : String
  current : Option Nat
  baseline : Option Nat
  status : Status
deriving DecidableEq, Repr

/-- The test `float64(speed)/float64(oldSpeed) > tol` of line 153.  For a
nonzero denominator the float comparison is modelled exactly by rationals; for
a zero denominator Go produces `+Inf` (numerator nonzero, comparison true) or
`NaN` (0/0, comparison false). -/
def factorGtTol (speed oldSpeed : Nat) (tol : ℚ) : Bool :=
  if oldSpeed = 0 then
    if speed = 0 then false else true
  else decide ((speed : ℚ) / (oldSpeed : ℚ) > tol)

/-- The test `float64(speed)/float64(oldSpeed) < tol` of line 156: `+Inf < tol`
and `NaN < tol` are both false. -/
def factorLtTol (speed oldSpeed : Nat) (tol : ℚ) : Bool :=
  if oldSpeed = 0 then false
  else decide ((speed : ℚ) / (oldSpeed : ℚ) < tol)

/-- The three-way branch of lines 153-159 on `factor = speed/oldSpeed`. -/
def classifySpeed (speed oldSpeed : Nat) (speedTol recordTol : ℚ) : Status :=
  if factorGtTol speed oldSpeed speedTol then Status.Regressed
  else if factorLtTol speed oldSpeed recordTol then Status.Improved
  else Status.Unchanged

/-- Missing-benchmark loop of lines 130-140: scan `oldBenches`, emitting a
Missing row (and raising the flag) for every key absent from `benches`.  The
loop only reads the maps. -/
def missingLoop (benches : AMap Nat) : AMap Nat → List DeltaRow × Bool
  | [] => ([], false)
  | (key, speed) :: rest =>
    let res := missingLoop benches rest
    if (mapLookup benches key).isSome then res
    else (⟨key, none, some speed, Status.Missing⟩ :: res.1, true)

/-- Speed-comparison loop of lines 144-161: scan `benches`, threading the
`oldBenches` map (which the Go code mutates in place at lines 148 and 157) and
the `tooSlow` flag.  A key absent from `oldBenches` is New and is added with
the current value; otherwise the ratio decides Regressed (flag, keep old),
Improved (adopt current), or Unchanged (keep old). -/
def speedLoop (speedTol recordTol : ℚ) :
    List (String × Nat) → AMap Nat → Bool → List DeltaRow × AMap Nat × Bool
  | [], ob, ts => ([], ob, ts)
  | (benchName, speed) :: rest, ob, ts =>
    match mapLookup ob benchName with
    | none =>
      let res := speedLoop speedTol recordTol rest (mapInsert ob benchName speed) ts
      (⟨benchName, some speed, none, Status.New⟩ :: res.1, res.2)
    | some oldSpeed =>
      match classifySpeed speed oldSpeed speedTol recordTol with
      | Status.Regressed =>
        let res := speedLoop speedTol recordTol rest ob true
        (⟨benchName, some speed, some oldSpeed, Status.Regressed⟩ :: res.1,
          res.2)
      | Status.Improved =>
        let res :=
          speedLoop speedTol recordTol rest (mapInsert ob benchName speed) ts
        (⟨benchName, some speed, some oldSpeed, Status.Improved⟩ :: res.1,
          res.2)
      | _ =>
        let res := speedLoop speedTol recordTol rest ob ts
        (⟨benchName, some speed, some oldSpeed, Status.Unchanged⟩ :: res.1,
          res.2)

/-- No-baseline loop of lines 163-168: every current benchmark is recorded as
a new best (`NO FILE` rows). -/
def noBaselineLoop : List (String × Nat) → AMap Nat → List DeltaRow × AMap Nat
  | [], acc => ([], acc)
  | (key, speed) :: rest, acc =>
    let res := noBaselineLoop rest (mapInsert acc key speed)
    (⟨key, some speed, none, Status.New⟩ :: res.1, res.2)

/-- Result of `compare`: the delta rows, the returned `bestBenches` map, and
the `missing` / `tooSlow` flags. -/
structure CompareOut : Type where
  rows : List DeltaRow
  newBaseline : AMap Nat
  missing : Bool
  tooSlow : Bool
deriving DecidableEq, Repr

/-- `compare` of rebench.go lines 125-172.  `oldBenches = none` models a nil
map (line 127 `oldBenches != nil` / line 162 `else`).  The delta header string
and log output are not modelled. -/
def compareBench (oldBenches : Option (AMap Nat)) (benches : AMap Nat)
    (speedTol recordTol : ℚ) : CompareOut :=
  match oldBenches with
  | some ob =>
    let mres := missingLoop benches ob
    let sres := speedLoop speedTol recordTol benches ob false
    ⟨mres.1 ++ sres.1, sres.2.1, mres.2, sres.2.2⟩
  | none =>
    let nres := noBaselineLoop benches []
    ⟨nres.1, nres.2, false, false⟩

/-!
## Lemmas about the `compare` loops
-/

theorem classifySpeed_cases (speed o : Nat) (sT rT : ℚ) :
    classifySpeed speed o sT rT = Status.Regressed ∨
      classifySpeed speed o sT rT = Status.Improved ∨
      classifySpeed speed o sT rT = Status.Unchanged := by
  unfold classifySpeed
  by_cases h1 : factorGtTol speed o sT <;>
    by_cases h2 : factorLtTol speed o rT <;> simp [h1, h2]

/-- Once the `tooSlow` flag is raised it is never cleared. -/
theorem speedLoop_ts_true (sT rT : ℚ) (l : List (String × Nat)) (ob : AMap Nat) :
    (speedLoop sT rT l ob true).2.2 = true := by
  induction l generalizing ob with
  | nil => simp [speedLoop]
  | cons p rest ih =>
    obtain ⟨k, v⟩ := p
    cases hob : mapLookup ob k with
    | none => simpa [speedLoop, hob] using ih _
    | some o =>
      rcases classifySpeed_cases v o sT rT with hc | hc | hc <;>
        simpa [speedLoop, hob, hc] using ih _

/-- A name that is not a key of the current record is left untouched in the
baseline map by the speed loop. -/
theorem speedLoop_lookup_notin (sT rT : ℚ) (l : List (String × Nat))
    (ob : AMap Nat) (ts : Bool) (name : String)
    (h : mapLookup l name = none) :
    mapLookup (speedLoop sT rT l ob ts).2.1 name = mapLookup ob name := by
  induction l generalizing ob ts with
  | nil => simp [speedLoop]
  | cons p rest ih =>
    obtain ⟨k, v⟩ := p
    have hk : k ≠ name := by
      intro he; subst he; simp [mapLookup] at h
    have h' : mapLookup rest name = none := by
      simpa [mapLookup, hk] using h
    cases hob : mapLookup ob k with
    | none =>
      simp only [speedLoop, hob]
      rw [ih _ _ h', mapLookup_mapInsert_ne _ _ _ _ hk]
    | some o =>
      rcases classifySpeed_cases v o sT rT with hc | hc | hc <;>
        simp only [speedLoop, hob, hc] <;>
        (rw [ih _ _ h']; try rw [mapLookup_mapInsert_ne _ _ _ _ hk])

/-- A current benchmark absent from the baseline: the speed loop classifies it
New and adds it to the baseline with the current value. -/
theorem speedLoop_new (sT rT : ℚ) (l : List (String × Nat)) (ob : AMap Nat)
    (ts : Bool) (name : String) (speed : Nat) (hl : KeysNodup l)
    (hfound : mapLookup l name = some speed)
    (hob : mapLookup ob name = none) :
    (⟨name, some speed, none, Status.New⟩ : DeltaRow) ∈
        (speedLoop sT rT l ob ts).1 ∧
      mapLookup (speedLoop sT rT l ob ts).2.1 name = some speed := by
  induction l generalizing ob ts with
  | nil => simp [mapLookup] at hfound
  | cons p rest ih =>
    obtain ⟨k, v⟩ := p
    have hl' : KeysNodup rest := by
      unfold KeysNodup at hl ⊢
      exact (List.nodup_cons.mp hl).2
    by_cases hk : k = name
    · subst hk
      have hv : v = speed := by simpa [mapLookup] using hfound
      subst hv
      have hrest : mapLookup rest k = none := by
        rw [mapLookup_eq_none_iff]
        exact (List.nodup_cons.mp hl).1
      simp only [speedLoop, hob]
      constructor
      · exact List.mem_cons_self _ _
      · rw [speedLoop_lookup_notin _ _ _ _ _ _ hrest,
          mapLookup_mapInsert_self]
    · have hfound' : mapLookup rest name = some speed := by
        simpa [mapLookup, hk] using hfound
      cases hobk : mapLookup ob k with
      | none =>
        have hob' : mapLookup (mapInsert ob k v) name = none := by
          rw [mapLookup_mapInsert_ne _ _ _ _ hk]; exact hob
        have := ih (mapInsert ob k v) ts hl' hfound' hob'
        simp only [speedLoop, hobk]
        exact ⟨List.mem_cons_of_mem _ this.1, this.2⟩
      | some o =>
        rcases classifySpeed_cases v o sT rT with hc | hc | hc <;>
          simp only [speedLoop, hobk, hc]
        · have := ih ob true hl' hfound' hob
          exact ⟨List.mem_cons_of_mem _ this.1, this.2⟩
        · have hob' : mapLookup (mapInsert ob k v) name = none := by
            rw [mapLookup_mapInsert_ne _ _ _ _ hk]; exact hob
          have := ih (mapInsert ob k v) ts hl' hfound' hob'
          exact ⟨List.mem_cons_of_mem _ this.1, this.2⟩
        · have := ih ob ts hl' hfound' hob
          exact ⟨List.mem_cons_of_mem _ this.1, this.2⟩

theorem classifySpeed_ne_new (speed o : Nat) (sT rT : ℚ) :
    classifySpeed speed o sT rT ≠ Status.New := by
  rcases classifySpeed_cases speed o sT rT with h | h | h <;> simp [h]

theorem classifySpeed_ne_missing (speed o : Nat) (sT rT : ℚ) :
    classifySpeed speed o sT rT ≠ Status.Missing := by
  rcases classifySpeed_cases speed o sT rT with h | h | h <;> simp [h]

/-- A current benchmark present in the baseline: the classification row is
emitted, the baseline keeps the old value unless the classification is
Improved, and a Regressed classification forces the final flag. -/
theorem speedLoop_old (sT rT : ℚ) (l : List (String × Nat)) (ob : AMap Nat)
    (ts : Bool) (name : String) (speed o : Nat) (hl : KeysNodup l)
    (hfound : mapLookup l name = some speed)
    (hob : mapLookup ob name = some o) :
    (⟨name, some speed, some o, classifySpeed speed o sT rT⟩ : DeltaRow) ∈
        (speedLoop sT rT l ob ts).1 ∧
      mapLookup (speedLoop sT rT l ob ts).2.1 name =
        (if classifySpeed speed o sT rT = Status.Improved then some speed
          else some o) ∧
      (classifySpeed speed o sT rT = Status.Regressed →
        (speedLoop sT rT l ob ts).2.2 = true) := by
  induction l generalizing ob ts with
  | nil => simp [mapLookup] at hfound
  | cons p rest ih =>
    obtain ⟨k, v⟩ := p
    have hl' : KeysNodup rest := by
      unfold KeysNodup at hl ⊢
      exact (List.nodup_cons.mp hl).2
    by_cases hk : k = name
    · subst hk
      have hsv : speed = v := by
        have := hfound
        simp [mapLookup] at this
        exact this.symm
      subst hsv
      have hrest : mapLookup rest k = none := by
        rw [mapLookup_eq_none_iff]
        exact (List.nodup_cons.mp hl).1
      cases hcc : classifySpeed speed o sT rT with
      | New => exact absurd hcc (classifySpeed_ne_new _ _ _ _)
      | Missing => exact absurd hcc (classifySpeed_ne_missing _ _ _ _)
      | Regressed =>
        simp only [speedLoop, hob, hcc]
        refine ⟨List.mem_cons_self _ _, ?_, fun _ => speedLoop_ts_true _ _ _ _⟩
        rw [speedLoop_lookup_notin _ _ _ _ _ _ hrest]
        simp [hob]
      | Improved =>
        simp only [speedLoop, hob, hcc]
        refine ⟨List.mem_cons_self _ _, ?_, by simp⟩
        rw [speedLoop_lookup_notin _ _ _ _ _ _ hrest,
          mapLookup_mapInsert_self]
        simp
      | Unchanged =>
        simp only [speedLoop, hob, hcc]
        refine ⟨List.mem_cons_self _ _, ?_, by simp⟩
        rw [speedLoop_lookup_notin _ _ _ _ _ _ hrest]
        simp [hob]
    · have hfound' : mapLookup rest name = some speed := by
        simpa [mapLookup, hk] using hfound
      cases hobk : mapLookup ob k with
      | none =>
        have hob' : mapLookup (mapInsert ob k v) name = some o := by
          rw [mapLookup_mapInsert_ne _ _ _ _ hk]; exact hob
        have hres := ih (mapInsert ob k v) ts hl' hfound' hob'
        simp only [speedLoop, hobk]
        exact ⟨List.mem_cons_of_mem _ hres.1, hres.2.1, hres.2.2⟩
      | some o' =>
        rcases classifySpeed_cases v o' sT rT with hc | hc | hc <;>
          simp only [speedLoop, hobk, hc]
        · have hres := ih ob true hl' hfound' hob
          exact ⟨List.mem_cons_of_mem _ hres.1, hres.2.1, hres.2.2⟩
        · have hob' : mapLookup (mapInsert ob k v) name = some o := by
            rw [mapLookup_mapInsert_ne _ _ _ _ hk]; exact hob
          have hres := ih (mapInsert ob k v) ts hl' hfound' hob'
          exact ⟨List.mem_cons_of_mem _ hres.1, hres.2.1, hres.2.2⟩
        · have hres := ih ob ts hl' hfound' hob
          exact ⟨List.mem_cons_of_mem _ hres.1, hres.2.1, hres.2.2⟩

/-- If no current benchmark classifies Regressed against its (possibly
already-updated) baseline entry, the speed loop leaves the flag alone. -/
theorem speedLoop_ts_of_no_regress (sT rT : ℚ) (l : List (String × Nat))
    (ob : AMap Nat) (ts : Bool) (hl : KeysNodup l)
    (h : ∀ k v o, (k, v) ∈ l → mapLookup ob k = some o →
      classifySpeed v o sT rT ≠ Status.Regressed) :
    (speedLoop sT rT l ob ts).2.2 = ts := by
  induction l generalizing ob with
  | nil => simp [speedLoop]
  | cons p rest ih =>
    obtain ⟨k, v⟩ := p
    have hl' : KeysNodup rest := by
      unfold KeysNodup at hl ⊢
      exact (List.nodup_cons.mp hl).2
    have hknotin : k ∉ rest.map Prod.fst := by
      unfold KeysNodup at hl
      exact (List.nodup_cons.mp hl).1
    cases hob : mapLookup ob k with
    | none =>
      simp only [speedLoop, hob]
      refine ih _ hl' ?_
      intro k' v' o' hm' ho'
      have hne : k ≠ k' := by
        intro he; subst he
        exact hknotin (List.mem_map.mpr ⟨(k, v'), hm', rfl⟩)
      rw [mapLookup_mapInsert_ne _ _ _ _ hne] at ho'
      exact h k' v' o' (List.mem_cons_of_mem _ hm') ho'
    | some o =>
      rcases classifySpeed_cases v o sT rT with hc | hc | hc
      · exact absurd hc (h k v o (List.mem_cons_self _ _) hob)
      · simp only [speedLoop, hob, hc]
        refine ih _ hl' ?_
        intro k' v' o' hm' ho'
        have hne : k ≠ k' := by
          intro he; subst he
          exact hknotin (List.mem_map.mpr ⟨(k, v'), hm', rfl⟩)
        rw [mapLookup_mapInsert_ne _ _ _ _ hne] at ho'
        exact h k' v' o' (List.mem_cons_of_mem _ hm') ho'
      · simp only [speedLoop, hob, hc]
        exact ih _ hl' (fun k' v' o' hm' ho' =>
          h k' v' o' (List.mem_cons_of_mem _ hm') ho')

/-- When every current benchmark is found in the baseline with its exact value
and the ratio 1 classifies Unchanged, the speed loop is the identity on the
baseline and flag and emits one Unchanged row per benchmark. -/
theorem speedLoop_allsame (sT rT : ℚ) (l : List (String × Nat))
    (ob : AMap Nat) (ts : Bool)
    (h : ∀ k v, (k, v) ∈ l → mapLookup ob k = some v ∧
      classifySpeed v v sT rT = Status.Unchanged) :
    speedLoop sT rT l ob ts =
      (l.map (fun p => ⟨p.1, some p.2, some p.2, Status.Unchanged⟩), ob, ts) := by
  induction l with
  | nil => simp [speedLoop]
  | cons p rest ih =>
    obtain ⟨k, v⟩ := p
    have hh := h k v (List.mem_cons_self _ _)
    simp only [speedLoop, hh.1, hh.2, List.map_cons]
    rw [ih (fun k' v' hm => h k' v' (List.mem_cons_of_mem _ hm))]

/-- If every baseline key is present in the current record, the missing loop
emits nothing and leaves the flag down. -/
theorem missingLoop_all_present (benches ob : AMap Nat)
    (h : ∀ k v, (k, v) ∈ ob → (mapLookup benches k).isSome) :
    missingLoop benches ob = ([], false) := by
  induction ob with
  | nil => rfl
  | cons p rest ih =>
    obtain ⟨k, v⟩ := p
    simp only [missingLoop, h k v (List.mem_cons_self _ _), if_true]
    exact ih (fun k' v' hm => h k' v' (List.mem_cons_of_mem _ hm))

/-- A baseline key absent from the current record yields a Missing row and
raises the missing flag. -/
theorem missingLoop_found (benches ob : AMap Nat) (k : String) (v : Nat)
    (hmem : (k, v) ∈ ob) (habs : mapLookup benches k = none) :
    (⟨k, none, some v, Status.Missing⟩ : DeltaRow) ∈
        (missingLoop benches ob).1 ∧
      (missingLoop benches ob).2 = true := by
  induction ob with
  | nil => simp at hmem
  | cons p rest ih =>
    obtain ⟨a, b⟩ := p
    rcases List.mem_cons.mp hmem with heq | hmem'
    · cases heq
      have : (mapLookup benches k).isSome = false := by rw [habs]; rfl
      simp [missingLoop, this]
    · by_cases ha : (mapLookup benches a).isSome
      · simp only [missingLoop, ha, if_true]
        exact ih hmem'
      · simp only [missingLoop, ha, if_false]
        exact ⟨List.mem_cons_of_mem _ (ih hmem').1, rfl⟩

theorem mapLookup_append {α : Type} (m n : AMap α) (k : String) :
    mapLookup (m ++ n) k =
      (match mapLookup m k with
        | some v => some v
        | none => mapLookup n k) := by
  induction m with
  | nil => simp [mapLookup]
  | cons p rest ih =>
    obtain ⟨a, b⟩ := p
    by_cases ha : a = k <;> simp [mapLookup, ha, ih]

theorem mapInsert_of_notin {α : Type} (m : AMap α) (k : String) (v : α)
    (h : mapLookup m k = none) : mapInsert m k v = m ++ [(k, v)] := by
  induction m with
  | nil => simp [mapInsert]
  | cons p rest ih =>
    obtain ⟨a, b⟩ := p
    have ha : a ≠ k := by intro he; subst he; simp [mapLookup] at h
    simp only [mapLookup, ha, if_false] at h
    simp [mapInsert, ha, ih h]

/-- The no-baseline loop appends all current benchmarks to the accumulator (in
iteration order) and reports each of them as a New row. -/
theorem noBaselineLoop_eq (l : List (String × Nat)) (acc : AMap Nat)
    (hl : KeysNodup l)
    (hdisj : ∀ k, k ∈ l.map Prod.fst → mapLookup acc k = none) :
    noBaselineLoop l acc =
      (l.map (fun p => ⟨p.1, some p.2, none, Status.New⟩), acc ++ l) := by
  induction l generalizing acc with
  | nil => simp [noBaselineLoop]
  | cons p rest ih =>
    obtain ⟨k, v⟩ := p
    have hacc : mapLookup acc k = none := hdisj k (by simp)
    have hl' : KeysNodup rest := by
      unfold KeysNodup at hl ⊢
      exact (List.nodup_cons.mp hl).2
    have hknotin : k ∉ rest.map Prod.fst := by
      unfold KeysNodup at hl
      exact (List.nodup_cons.mp hl).1
    have hdisj' : ∀ k', k' ∈ rest.map Prod.fst →
        mapLookup (acc ++ [(k, v)]) k' = none := by
      intro k' hk'
      have hne : k ≠ k' := fun he => hknotin (he ▸ hk')
      rw [mapLookup_append, hdisj k' (List.mem_cons_of_mem _ hk')]
      simp [mapLookup, hne]
    simp only [noBaselineLoop, List.map_cons]
    rw [mapInsert_of_notin _ _ _ hacc, ih _ hl' hdisj']
    simp

/-!
## Claim theorems for the regression engine
-/

/-- C1: for every baseline `ob`, current record `benches` and tolerances, and
every benchmark present in both with positive baseline timing: if the ratio
current/baseline exceeds `speedTol`, `compare` emits a Regressed row for it,
returns `tooSlow = true`, and the returned baseline still maps the name to the
old baseline value. -/
theorem compareBench_regression_keeps_old_baseline (ob benches : AMap Nat)
    (speedTol recordTol : ℚ) (name : String) (oldSpeed speed : Nat)
    (hb : KeysNodup benches)
    (hold : mapLookup ob name = some oldSpeed)
    (hcur : mapLookup benches name = some speed)
    (hpos : 0 < oldSpeed)
    (hratio : (speed : ℚ) / (oldSpeed : ℚ) > speedTol) :
    (⟨name, some speed, some oldSpeed, Status.Regressed⟩ : DeltaRow) ∈
        (compareBench (some ob) benches speedTol recordTol).rows ∧
      (compareBench (some ob) benches speedTol recordTol).tooSlow = true ∧
      mapLookup (compareBench (some ob) benches speedTol recordTol).newBaseline
        name = some oldSpeed := by
  have hnz : oldSpeed ≠ 0 := Nat.pos_iff_ne_zero.mp hpos
  have hcls : classifySpeed speed oldSpeed speedTol recordTol =
      Status.Regressed := by
    unfold classifySpeed factorGtTol
    simp [hnz, hratio]
  have hres := speedLoop_old speedTol recordTol benches ob false name speed
    oldSpeed hb hcur hold
  rw [hcls] at hres
  refine ⟨?_, ?_, ?_⟩
  · simp only [compareBench]
    exact List.mem_append_right _ hres.1
  · simp only [compareBench]
    exact hres.2.2 rfl
  · simp only [compareBench]
    rw [hres.2.1]
    simp

/-- Witness for `compareBench_regression_keeps_old_baseline`: the spec's regression
scenario, benchmark X of baseline {X:1, Y:1} against current
{X:500000000, Y:5000000000} at speedTol 1.5. -/
theorem compareBench_regression_keeps_old_baseline_witness :
    (⟨"X", some 500000000, some 1, Status.Regressed⟩ : DeltaRow) ∈
        (compareBench (some [("X", 1), ("Y", 1)])
          [("X", 500000000), ("Y", 5000000000)] (3/2) (7/10)).rows ∧
      (compareBench (some [("X", 1), ("Y", 1)])
        [("X", 500000000), ("Y", 5000000000)] (3/2) (7/10)).tooSlow = true ∧
      mapLookup (compareBench (some [("X", 1), ("Y", 1)])
        [("X", 500000000), ("Y", 5000000000)] (3/2) (7/10)).newBaseline "X" =
        some 1 :=
  compareBench_regression_keeps_old_baseline [("X", 1), ("Y", 1)]
    [("X", 500000000), ("Y", 5000000000)] (3/2) (7/10) "X" 1 500000000
    (by decide) (by decide) (by decide) (by decide) (by norm_num)

/-- C2: for every baseline and current record, every baseline key missing from
the current record yields a Missing row, raises the missing flag, and is
retained unchanged in the returned baseline; moreover the returned baseline
contains every key of the old baseline. -/
theorem compareBench_baseline_keys_never_dropped (ob benches : AMap Nat)
    (speedTol recordTol : ℚ) (hb : KeysNodup benches) :
    (∀ key old, mapLookup ob key = some old →
      mapLookup benches key = none →
      (⟨key, none, some old, Status.Missing⟩ : DeltaRow) ∈
          (compareBench (some ob) benches speedTol recordTol).rows ∧
        (compareBench (some ob) benches speedTol recordTol).missing = true ∧
        mapLookup (compareBench (some ob) benches speedTol recordTol).newBaseline
          key = some old) ∧
    (∀ key, (mapLookup ob key).isSome →
      (mapLookup (compareBench (some ob) benches speedTol recordTol).newBaseline
        key).isSome) := by
  constructor
  · intro key old hold habs
    have hmem := mapLookup_eq_some_mem hold
    have hmiss := missingLoop_found benches ob key old hmem habs
    refine ⟨?_, ?_, ?_⟩
    · simp only [compareBench]
      exact List.mem_append_left _ hmiss.1
    · simp only [compareBench]
      exact hmiss.2
    · simp only [compareBench]
      rw [speedLoop_lookup_notin _ _ _ _ _ _ habs]
      exact hold
  · intro key hsome
    obtain ⟨old, hold⟩ := Option.isSome_iff_exists.mp hsome
    cases hcur : mapLookup benches key with
    | none =>
      simp only [compareBench]
      rw [speedLoop_lookup_notin _ _ _ _ _ _ hcur, hold]
      rfl
    | some speed =>
      have hres := speedLoop_old speedTol recordTol benches ob false key speed
        old hb hcur hold
      simp only [compareBench]
      rw [hres.2.1]
      by_cases hc : classifySpeed speed old speedTol recordTol =
          Status.Improved <;> simp [hc]

/-- Witness for `compareBench_baseline_keys_never_dropped`: the spec's missing
scenario, baseline {A:500, B:10000} against current {B:10000}. -/
theorem compareBench_baseline_keys_never_dropped_witness :
    ((⟨"A", none, some 500, Status.Missing⟩ : DeltaRow) ∈
        (compareBench (some [("A", 500), ("B", 10000)]) [("B", 10000)]
          (3/2) (7/10)).rows ∧
      (compareBench (some [("A", 500), ("B", 10000)]) [("B", 10000)]
        (3/2) (7/10)).missing = true ∧
      mapLookup (compareBench (some [("A", 500), ("B", 10000)]) [("B", 10000)]
        (3/2) (7/10)).newBaseline "A" = some 500) ∧
    (mapLookup (compareBench (some [("A", 500), ("B", 10000)]) [("B", 10000)]
      (3/2) (7/10)).newBaseline "B").isSome := by
  have h := compareBench_baseline_keys_never_dropped [("A", 500), ("B", 10000)]
    [("B", 10000)] (3/2) (7/10) (by decide)
  exact ⟨h.1 "A" 500 (by decide) (by decide), h.2 "B" (by decide)⟩

/-- C3: with an absent (nil) baseline, `compare` classifies every current
benchmark New, returns both flags false, and returns a baseline equal to the
current record. -/
theorem compareBench_no_baseline (benches : AMap Nat) (speedTol recordTol : ℚ)
    (hb : KeysNodup benches) :
    compareBench none benches speedTol recordTol =
      ⟨benches.map (fun p => ⟨p.1, some p.2, none, Status.New⟩),
        benches, false, false⟩ := by
  simp only [compareBench]
  rw [noBaselineLoop_eq benches [] hb (fun k _ => rfl)]
  simp

/-- Witness for `compareBench_no_baseline` at a concrete two-benchmark record. -/
theorem compareBench_no_baseline_witness :
    compareBench none [("X", 500), ("Y", 10000)] (3/2) (7/10) =
      ⟨[⟨"X", some 500, none, Status.New⟩,
        ⟨"Y", some 10000, none, Status.New⟩],
        [("X", 500), ("Y", 10000)], false, false⟩ := by
  have h := compareBench_no_baseline [("X", 500), ("Y", 10000)] (3/2) (7/10)
    (by decide)
  simpa using h

/-- C8: comparing a baseline against a current record equal to it (tolerances
in the documented regime recordTol ≤ 1 ≤ speedTol) classifies every key
Unchanged, returns the baseline unchanged, and raises no flag. -/
theorem compareBench_self (B : AMap Nat) (speedTol recordTol : ℚ)
    (hB : KeysNodup B) (hrT : recordTol ≤ 1) (hsT : 1 ≤ speedTol) :
    compareBench (some B) B speedTol recordTol =
      ⟨B.map (fun p => ⟨p.1, some p.2, some p.2, Status.Unchanged⟩),
        B, false, false⟩ := by
  have hall : ∀ k v, (k, v) ∈ B → mapLookup B k = some v ∧
      classifySpeed v v speedTol recordTol = Status.Unchanged := by
    intro k v hm
    refine ⟨mem_mapLookup_of_nodup hB hm, ?_⟩
    by_cases hv : v = 0
    · subst hv
      unfold classifySpeed factorGtTol factorLtTol
      simp
    · have hvv : ((v : ℚ) / (v : ℚ)) = 1 := div_self (by exact_mod_cast hv)
      have hgt : factorGtTol v v speedTol = false := by
        unfold factorGtTol
        rw [if_neg hv]
        simp only [hvv, decide_eq_false_iff_not]
        intro hlt1
        linarith
      have hlt : factorLtTol v v recordTol = false := by
        unfold factorLtTol
        rw [if_neg hv]
        simp only [hvv, decide_eq_false_iff_not]
        intro hlt1
        linarith
      unfold classifySpeed
      rw [hgt, hlt]
      simp
  have hmiss : missingLoop B B = ([], false) :=
    missingLoop_all_present B B (fun k v hm => by rw [(hall k v hm).1]; rfl)
  have hspeed := speedLoop_allsame speedTol recordTol B B false hall
  simp only [compareBench]
  rw [hmiss, hspeed]
  rfl

/-- Witness for `compareBench_self` at a concrete baseline and the default
tolerances 1.5 and 0.7. -/
theorem compareBench_self_witness :
    compareBench (some [("A", 500), ("B", 10000)]) [("A", 500), ("B", 10000)]
        (3/2) (7/10) =
      ⟨[⟨"A", some 500, some 500, Status.Unchanged⟩,
        ⟨"B", some 10000, some 10000, Status.Unchanged⟩],
        [("A", 500), ("B", 10000)], false, false⟩ := by
  have h := compareBench_self [("A", 500), ("B", 10000)] (3/2) (7/10)
    (by decide) (by norm_num) (by norm_num)
  simpa using h

/-- Order of statuses along the ratio axis: Improved < Unchanged < Regressed. -/
def statOrd : Status → Nat
  | Status.Improved => 0
  | Status.Unchanged => 1
  | Status.Regressed => 2
  | Status.New => 3
  | Status.Missing => 4

/-- C9: for a fixed positive baseline timing, a strictly larger current timing
has a strictly larger ratio, and the classification moves only in the
direction Improved → Unchanged → Regressed, never backwards. -/
theorem classifySpeed_monotone (oldSpeed c1 c2 : Nat)
    (speedTol recordTol : ℚ) (hpos : 0 < oldSpeed) (hlt : c1 < c2) :
    (c1 : ℚ) / (oldSpeed : ℚ) < (c2 : ℚ) / (oldSpeed : ℚ) ∧
      statOrd (classifySpeed c1 oldSpeed speedTol recordTol) ≤
        statOrd (classifySpeed c2 oldSpeed speedTol recordTol) := by
  have hnz : oldSpeed ≠ 0 := Nat.pos_iff_ne_zero.mp hpos
  have hposq : (0 : ℚ) < (oldSpeed : ℚ) := by exact_mod_cast hpos
  have hltq : (c1 : ℚ) < (c2 : ℚ) := by exact_mod_cast hlt
  have hred : (c1 : ℚ) / (oldSpeed : ℚ) < (c2 : ℚ) / (oldSpeed : ℚ) :=
    (div_lt_div_iff_of_pos_right hposq).mpr hltq
  refine ⟨hred, ?_⟩
  unfold classifySpeed factorGtTol factorLtTol
  simp only [hnz, if_false]
  by_cases h1 : (c1 : ℚ) / (oldSpeed : ℚ) > speedTol <;>
    by_cases h2 : (c2 : ℚ) / (oldSpeed : ℚ) > speedTol <;>
    by_cases h3 : (c1 : ℚ) / (oldSpeed : ℚ) < recordTol <;>
    by_cases h4 : (c2 : ℚ) / (oldSpeed : ℚ) < recordTol <;>
    simp [h1, h2, h3, h4, statOrd] <;>
    linarith

/-- Witness for `classifySpeed_monotone`: baseline 1000, currents 500 < 2000
at the default tolerances; the classification moves Improved → Regressed. -/
theorem classifySpeed_monotone_witness :
    ((500 : ℚ) / (1000 : ℚ) < (2000 : ℚ) / (1000 : ℚ) ∧
      statOrd (classifySpeed 500 1000 (3/2) (7/10)) ≤
        statOrd (classifySpeed 2000 1000 (3/2) (7/10))) :=
  classifySpeed_monotone 1000 500 2000 (3/2) (7/10) (by decide) (by decide)

/-- Contents of the caller's `oldBenches` map after `compare` returns.  Go
maps are reference values: the writes `oldBenches[benchName] = speed` at lines
148 and 157 act on the very map the caller passed in (when non-nil), and the
returned `bestBenches` at line 171 is that same map, so after the call the
caller's map holds exactly the returned new baseline.  A nil baseline is never
written into. -/
def baselineAfterCompare (oldBenches : Option (AMap Nat)) (benches : AMap Nat)
    (speedTol recordTol : ℚ) : Option (AMap Nat) :=
  match oldBenches with
  | none => none
  | some ob =>
    some (compareBench (some ob) benches speedTol recordTol).newBaseline

/-- C4 counterexample: `compare` is not free of input mutation.  With
baseline {A:10} and current {A:1} (ratio 0.1 < recordTol 0.7, Improved), the
write at line 157 changes the caller's baseline map to {A:1}: the baseline
input does not survive the call unchanged. -/
theorem compareBench_mutation_counterexample :
    baselineAfterCompare (some [("A", 10)]) [("A", 1)] (3/2) (7/10) =
        some [("A", 1)] ∧
      baselineAfterCompare (some [("A", 10)]) [("A", 1)] (3/2) (7/10) ≠
        some [("A", 10)] := by
  have hgt : factorGtTol 1 10 (3/2) = false := by
    unfold factorGtTol
    norm_num
  have hlt : factorLtTol 1 10 (7/10) = true := by
    unfold factorLtTol
    norm_num
  have hcls : classifySpeed 1 10 (3/2) (7/10) = Status.Improved := by
    unfold classifySpeed
    rw [hgt, hlt]
    simp
  have heq : baselineAfterCompare (some [("A", 10)]) [("A", 1)] (3/2) (7/10) =
      some [("A", 1)] := by
    simp [baselineAfterCompare, compareBench, speedLoop, missingLoop,
      mapLookup, mapInsert, hcls]
  refine ⟨heq, ?_⟩
  rw [heq]
  decide

/-- C4 (amended): `compare` is deterministic and performs no I/O, but when the
baseline is present it builds the new baseline by writing into the caller's
baseline map, so after the call the caller's map holds the returned
newBaseline; per key that map holds the current value for New and Improved
benchmarks and the old baseline value otherwise, and keys absent from the
current record keep their old values. -/
theorem compareBench_mutates_baseline_per_key (ob benches : AMap Nat)
    (speedTol recordTol : ℚ) (hb : KeysNodup benches) (name : String) :
    baselineAfterCompare (some ob) benches speedTol recordTol =
        some (compareBench (some ob) benches speedTol recordTol).newBaseline ∧
      mapLookup
          (compareBench (some ob) benches speedTol recordTol).newBaseline
          name =
        (match mapLookup benches name, mapLookup ob name with
          | none, x => x
          | some v, none => some v
          | some v, some o =>
            if classifySpeed v o speedTol recordTol = Status.Improved then
              some v
            else some o) := by
  refine ⟨rfl, ?_⟩
  cases hcur : mapLookup benches name with
  | none =>
    simp only [compareBench]
    rw [speedLoop_lookup_notin _ _ _ _ _ _ hcur]
  | some v =>
    cases hold : mapLookup ob name with
    | none =>
      have hres := speedLoop_new speedTol recordTol benches ob false name v
        hb hcur hold
      simp only [compareBench]
      rw [hres.2]
    | some o =>
      have hres := speedLoop_old speedTol recordTol benches ob false name v o
        hb hcur hold
      simp only [compareBench]
      rw [hres.2.1]

/-- Witness for `compareBench_mutates_baseline_per_key`: baseline {A:10}
against current {A:1, B:5}; A is Improved (adopts 1), B is New. -/
theorem compareBench_mutates_baseline_per_key_witness :
    baselineAfterCompare (some [("A", 10)]) [("A", 1), ("B", 5)]
          (3/2) (7/10) =
        some (compareBench (some [("A", 10)]) [("A", 1), ("B", 5)]
          (3/2) (7/10)).newBaseline ∧
      mapLookup (compareBench (some [("A", 10)]) [("A", 1), ("B", 5)]
            (3/2) (7/10)).newBaseline "A" =
        (match mapLookup [("A", 1), ("B", 5)] "A", mapLookup [("A", 10)] "A"
          with
          | none, x => x
          | some v, none => some v
          | some v, some o =>
            if classifySpeed v o (3/2) (7/10) = Status.Improved then some v
            else some o) :=
  compareBench_mutates_baseline_per_key [("A", 10)] [("A", 1), ("B", 5)]
    (3/2) (7/10) (by decide) "A"

/-!
## The report formatter: `tabAlign` (rebench.go lines 179-210)

Strings are handled at the `List Char` level (`String.toList` /
`String.mk`): the separators involved (`"\n"`, `"\t"`) are single ASCII
characters, so Go's byte-level `strings.Split` coincides with a
character-level split.
-/

/-- `strings.Split(s, sep)` for a single-character separator: `""` yields
`[""]`, and every occurrence of the separator starts a new piece. -/
def splitChar (sep : Char) : List Char → List (List Char)
  | [] => [[]]
  | c :: rest =>
    match splitChar sep rest with
    | [] => [[c]]
    | piece :: pieces =>
      if c = sep then [] :: piece :: pieces
      else (c :: piece) :: pieces

/-- `strings.Join(pieces, sep)` for a single-character separator. -/
def joinChar (sep : Char) : List (List Char) → List Char
  | [] => []
  | [x] => x
  | x :: xs => x ++ sep :: joinChar sep xs

/-- Inner rendering loop of lines 201-205: first field, then for each further
field `(max width of its column − width of the previous field + 4)` spaces
followed by the field. -/
def alignRowAux : List Nat → List (List Char) → List Char
  | _, [] => []
  | [], c :: _ => c
  | m :: ms, c :: cs =>
    match cs with
    | [] => c
    | _ :: _ =>
      c ++ List.replicate (m - c.length + 4) ' ' ++ alignRowAux ms cs

/-- One step of the width-collection loop of lines 183-192: a row with
exactly 4 tab-separated fields raises the per-column maxima, any other row is
skipped. -/
def maxStep (acc : List Nat) (row : List Char) : List Nat :=
  let cols := splitChar '\t' row
  if cols.length = 4 then List.zipWith max acc (cols.map List.length) else acc

/-- `max := [4]int{}` followed by the width-collection loop. -/
def maxWidths (rows : List (List Char)) : List Nat :=
  rows.foldl maxStep [0, 0, 0, 0]

/-- One slot of the `aligned` array (lines 195-207): a well-formed row is
rendered, a malformed row leaves the zero value `""` in its slot. -/
def tabAlignRow (maxw : List Nat) (row : List Char) : List Char :=
  if (splitChar '\t' row).length = 4 then
    alignRowAux maxw (splitChar '\t' row)
  else []

/-- The `aligned` array: same length as `rows`. -/
def tabAlignRows (rows : List (List Char)) : List (List Char) :=
  rows.map (tabAlignRow (maxWidths rows))

/-- `tabAlign` of lines 179-210: split on newlines, align, rejoin. -/
def tabAlign (delta : String) : String :=
  String.mk (joinChar '\n' (tabAlignRows (splitChar '\n' delta.toList)))

theorem maxStep_length (acc : List Nat) (row : List Char)
    (h : acc.length = 4) : (maxStep acc row).length = 4 := by
  unfold maxStep
  by_cases hc : (splitChar '\t' row).length = 4 <;> simp [hc, h]

theorem foldl_maxStep_length (rs : List (List Char)) (acc : List Nat)
    (h : acc.length = 4) : (rs.foldl maxStep acc).length = 4 := by
  induction rs generalizing acc with
  | nil => simpa using h
  | cons r rest ih => exact ih _ (maxStep_length _ _ h)

theorem maxWidths_length (rs : List (List Char)) : (maxWidths rs).length = 4 :=
  foldl_maxStep_length rs _ rfl

theorem getD_zipWith_max (a b : List Nat) (j : Nat) (h : a.length = b.length) :
    (List.zipWith max a b).getD j 0 = max (a.getD j 0) (b.getD j 0) := by
  induction a generalizing b j with
  | nil =>
    cases b with
    | nil => simp
    | cons y ys => simp at h
  | cons x xs ih =>
    cases b with
    | nil => simp at h
    | cons y ys =>
      cases j with
      | zero => simp
      | succ j' =>
        simp only [List.zipWith_cons_cons, List.getD_cons_succ]
        exact ih ys j' (by simpa using h)

theorem maxStep_le (acc : List Nat) (row : List Char) (j : Nat)
    (h : acc.length = 4) : acc.getD j 0 ≤ (maxStep acc row).getD j 0 := by
  unfold maxStep
  by_cases hc : (splitChar '\t' row).length = 4
  · simp only [hc, if_true]
    rw [getD_zipWith_max _ _ _ (by simp [h, hc])]
    exact Nat.le_max_left _ _
  · simp [hc]

theorem foldl_maxStep_le (rs : List (List Char)) (acc : List Nat) (j : Nat)
    (h : acc.length = 4) : acc.getD j 0 ≤ (rs.foldl maxStep acc).getD j 0 := by
  induction rs generalizing acc with
  | nil => simp
  | cons r rest ih =>
    calc acc.getD j 0 ≤ (maxStep acc r).getD j 0 := maxStep_le _ _ _ h
      _ ≤ _ := ih _ (maxStep_length _ _ h)

theorem maxStep_ge_widths (acc : List Nat) (row : List Char) (j : Nat)
    (hwf : (splitChar '\t' row).length = 4) (h : acc.length = 4) :
    ((splitChar '\t' row).map List.length).getD j 0 ≤
      (maxStep acc row).getD j 0 := by
  unfold maxStep
  simp only [hwf, if_true]
  rw [getD_zipWith_max _ _ _ (by simp [h, hwf])]
  exact Nat.le_max_right _ _

/-- The collected maxima dominate the field widths of every well-formed row:
the padding count `max[i] - len(cols[i]) + 4` of line 203 is never negative in
the source, so the truncated subtraction of the model is exact. -/
theorem maxWidths_dominates (rs : List (List Char)) (row : List Char)
    (hmem : row ∈ rs) (hwf : (splitChar '\t' row).length = 4) (j : Nat) :
    ((splitChar '\t' row).map List.length).getD j 0 ≤
      (maxWidths rs).getD j 0 := by
  obtain ⟨l1, l2, rfl⟩ := List.append_of_mem hmem
  unfold maxWidths
  rw [List.foldl_append]
  have hlen : (l1.foldl maxStep [0, 0, 0, 0]).length = 4 :=
    foldl_maxStep_length _ _ rfl
  simp only [List.foldl_cons]
  calc ((splitChar '\t' row).map List.length).getD j 0
      ≤ (maxStep (l1.foldl maxStep [0, 0, 0, 0]) row).getD j 0 :=
        maxStep_ge_widths _ _ _ hwf hlen
    _ ≤ _ := foldl_maxStep_le _ _ _ (maxStep_length _ _ hlen)

/-- C5 counterexample: a malformed row is dropped from width computation and
its content from the output, but it is **not** excluded from the output
entirely — its slot in the `aligned` array keeps the zero value `""`, so the
join emits an empty line in its place.  With the malformed row `"BAD"`
between two well-formed rows, the output has an empty middle line instead of
the two-line output the claim predicts. -/
theorem tabAlign_blank_line_counterexample :
    tabAlign "a\tbb\tc\td\nBAD\ne\tf\tg\th" =
        "a    bb    c    d\n\ne    f     g    h" ∧
      tabAlign "a\tbb\tc\td\nBAD\ne\tf\tg\th" ≠
        "a    bb    c    d\ne    f     g    h" := by
  constructor <;> decide

/-- C5 (amended): rows whose tab-split field count is not exactly 4 are
excluded from the width computation and their content from the output, but
each such row leaves an empty line in place (the output has exactly one line
per input line); every well-formed row is rendered in its original position
with each field followed by (column maximum − field width + 4) spaces before
the next field, and the column maxima dominate every well-formed row's field
widths. -/
theorem tabAlign_amended (delta : String) (rs : List (List Char)) (i : Nat)
    (hi : i < rs.length) :
    tabAlign delta =
        String.mk (joinChar '\n'
          (tabAlignRows (splitChar '\n' delta.toList))) ∧
      (tabAlignRows rs).length = rs.length ∧
      ((splitChar '\t' (rs.getD i [])).length ≠ 4 →
        (tabAlignRows rs).getD i [] = []) ∧
      ((splitChar '\t' (rs.getD i [])).length = 4 →
        (tabAlignRows rs).getD i [] =
            alignRowAux (maxWidths rs) (splitChar '\t' (rs.getD i [])) ∧
          ∀ j, ((splitChar '\t' (rs.getD i [])).map List.length).getD j 0 ≤
            (maxWidths rs).getD j 0) := by
  have hlen : (tabAlignRows rs).length = rs.length := by simp [tabAlignRows]
  have hslot : (tabAlignRows rs).getD i [] =
      tabAlignRow (maxWidths rs) (rs.getD i []) := by
    rw [List.getD_eq_getElem _ _ (by rwa [hlen]), List.getD_eq_getElem _ _ hi]
    simp [tabAlignRows]
  refine ⟨rfl, hlen, ?_, ?_⟩
  · intro hmal
    rw [hslot]
    unfold tabAlignRow
    rw [if_neg hmal]
  · intro hwf
    refine ⟨?_, fun j => ?_⟩
    · rw [hslot]
      unfold tabAlignRow
      rw [if_pos hwf]
    · refine maxWidths_dominates rs _ ?_ hwf j
      rw [List.getD_eq_getElem _ _ hi]
      apply List.getElem_mem

/-- Witness for `tabAlign_amended` at the counterexample input: the middle
row `"BAD"` is malformed and its slot is empty. -/
theorem tabAlign_amended_witness :
    tabAlign "x" =
        String.mk (joinChar '\n'
          (tabAlignRows (splitChar '\n' "x".toList))) ∧
      (tabAlignRows ["a\tbb\tc\td".toList, "BAD".toList,
        "e\tf\tg\th".toList]).length = 3 ∧
      ((splitChar '\t' (["a\tbb\tc\td".toList, "BAD".toList,
          "e\tf\tg\th".toList].getD 1 [])).length ≠ 4 →
        (tabAlignRows ["a\tbb\tc\td".toList, "BAD".toList,
          "e\tf\tg\th".toList]).getD 1 [] = []) ∧
      ((splitChar '\t' (["a\tbb\tc\td".toList, "BAD".toList,
          "e\tf\tg\th".toList].getD 1 [])).length = 4 →
        (tabAlignRows ["a\tbb\tc\td".toList, "BAD".toList,
          "e\tf\tg\th".toList]).getD 1 [] =
            alignRowAux (maxWidths ["a\tbb\tc\td".toList, "BAD".toList,
              "e\tf\tg\th".toList])
              (splitChar '\t' (["a\tbb\tc\td".toList, "BAD".toList,
                "e\tf\tg\th".toList].getD 1 [])) ∧
          ∀ j, ((splitChar '\t' (["a\tbb\tc\td".toList, "BAD".toList,
              "e\tf\tg\th".toList].getD 1 [])).map List.length).getD j 0 ≤
            (maxWidths ["a\tbb\tc\td".toList, "BAD".toList,
              "e\tf\tg\th".toList]).getD j 0) :=
  tabAlign_amended "x"
    ["a\tbb\tc\td".toList, "BAD".toList, "e\tf\tg\th".toList] 1 (by decide)

/-!
## The path resolver: `findGosrc` (rebench.go lines 285-295) and
`convertPath` (convertpath_other.go lines 9-11)
-/

/-- `convertPath` of the non-Windows build (convertpath_other.go): the
identity. -/
def convertPath (pathFromTest : String) : String := pathFromTest

/-- `sub` matches inside `s` at position `i` (the whole of `sub` fits). -/
def matchesAtB (s sub : List Char) (i : Nat) : Bool :=
  decide ((s.drop i).take sub.length = sub)

/-- Scan positions `n, n-1, …, 0` for the last match: the first hit from the
top is the greatest matching position.  `none` models Go's `-1`. -/
def lastIndexAux (s sub : List Char) : Nat → Option Nat
  | 0 => if matchesAtB s sub 0 then some 0 else none
  | n + 1 =>
    if matchesAtB s sub (n + 1) then some (n + 1) else lastIndexAux s sub n

/-- `strings.LastIndex(s, sub)` (byte level; all strings involved here are
treated at character level). -/
def strLastIndex (s sub : List Char) : Option Nat :=
  lastIndexAux s sub s.length

/-- `findGosrc` of rebench.go lines 285-295: last occurrence of the converted
package path in `pwd`; positions ≤ 1 (including absence, Go's `-1`) yield
`""`; otherwise the prefix of `pwd` up to one character before the match. -/
def findGosrc (pwd pkgName : String) : String :=
  match strLastIndex pwd.toList (convertPath pkgName).toList with
  | none => ""
  | some index =>
    if index ≤ 1 then "" else String.mk (pwd.toList.take (index - 1))

theorem lastIndexAux_some (s sub : List Char) (n i : Nat)
    (h : lastIndexAux s sub n = some i) :
    matchesAtB s sub i = true ∧ i ≤ n ∧
      ∀ j, i < j → j ≤ n → matchesAtB s sub j = false := by
  induction n with
  | zero =>
    unfold lastIndexAux at h
    by_cases h0 : matchesAtB s sub 0
    · simp only [h0, if_true, Option.some.injEq] at h
      subst h
      exact ⟨h0, Nat.le_refl 0, fun j hj hj' => absurd hj' (by omega)⟩
    · simp [h0] at h
  | succ n ih =>
    unfold lastIndexAux at h
    by_cases hn : matchesAtB s sub (n + 1)
    · simp only [hn, if_true, Option.some.injEq] at h
      subst h
      exact ⟨hn, Nat.le_refl _, fun j hj hj' => absurd hj' (by omega)⟩
    · simp only [hn, if_false] at h
      obtain ⟨h1, h2, h3⟩ := ih h
      refine ⟨h1, Nat.le_succ_of_le h2, ?_⟩
      intro j hj hj'
      by_cases hje : j = n + 1
      · subst hje
        exact Bool.not_eq_true _ ▸ (by simpa using hn)
      · exact h3 j hj (by omega)

theorem lastIndexAux_none (s sub : List Char) (n : Nat)
    (h : lastIndexAux s sub n = none) :
    ∀ j, j ≤ n → matchesAtB s sub j = false := by
  induction n with
  | zero =>
    unfold lastIndexAux at h
    by_cases h0 : matchesAtB s sub 0
    · simp [h0] at h
    · intro j hj
      have : j = 0 := by omega
      subst this
      simpa using h0
  | succ n ih =>
    unfold lastIndexAux at h
    by_cases hn : matchesAtB s sub (n + 1)
    · simp [hn] at h
    · simp only [hn, if_false] at h
      intro j hj
      by_cases hje : j = n + 1
      · subst hje
        simpa using hn
      · exact ih h j (by omega)

/-- Modelled from the spec's words (§4.2 "locate the position where the
working directory's trailing segments match the package path"): the
normalized package path occurs as a suffix of the working directory. -/
def specTrailingMatch (pwd pkgName : String) : Bool :=
  (convertPath pkgName).toList.isSuffixOf pwd.toList

/-- C6 counterexample: `findGosrc` uses `strings.LastIndex`, which finds the
last occurrence anywhere, not only among `pwd`'s trailing segments.  For
pwd = "ab/cd/ef" and package path "cd" there is no trailing-segment match
(the claim then demands `""`), yet the code returns "ab". -/
theorem findGosrc_counterexample :
    findGosrc "ab/cd/ef" "cd" = "ab" ∧
      specTrailingMatch "ab/cd/ef" "cd" = false := by
  constructor <;> decide

/-- C6 (amended): `findGosrc` returns `""` exactly when the converted package
path has no occurrence in `pwd` starting at a position ≥ 2 (absence and
matches starting at the first or second character are rejected); otherwise,
for the greatest occurrence position `i`, it returns the prefix of `pwd` of
length `i − 1` — everything strictly before the match with the preceding
separator character lopped off. -/
theorem findGosrc_spec (pwd pkgName : String) :
    (findGosrc pwd pkgName = "" ↔
      ¬∃ i, 2 ≤ i ∧ i ≤ pwd.toList.length ∧
        matchesAtB pwd.toList (convertPath pkgName).toList i = true) ∧
    (∀ i, 2 ≤ i → i ≤ pwd.toList.length →
      matchesAtB pwd.toList (convertPath pkgName).toList i = true →
      (∀ j, i < j → j ≤ pwd.toList.length →
        matchesAtB pwd.toList (convertPath pkgName).toList j = false) →
      findGosrc pwd pkgName = String.mk (pwd.toList.take (i - 1))) := by
  constructor
  · constructor
    · intro hempty
      rintro ⟨i, hi2, hilen, him⟩
      cases hlast : strLastIndex pwd.toList (convertPath pkgName).toList with
      | none =>
        have hf := lastIndexAux_none _ _ _ hlast i hilen
        rw [him] at hf
        exact absurd hf (by simp)
      | some idx =>
        have hgo : findGosrc pwd pkgName =
            (if idx ≤ 1 then "" else
              String.mk (pwd.toList.take (idx - 1))) := by
          unfold findGosrc
          rw [hlast]
        obtain ⟨h1, h2, h3⟩ := lastIndexAux_some _ _ _ _ hlast
        by_cases hle : idx ≤ 1
        · have hii : i ≤ idx := by
            by_contra hgt
            have hf := h3 i (by omega) hilen
            rw [him] at hf
            exact absurd hf (by simp)
          omega
        · rw [hgo, if_neg hle] at hempty
          have htake : (pwd.toList.take (idx - 1)).length = idx - 1 := by
            rw [List.length_take]
            omega
          have hnil : pwd.toList.take (idx - 1) = [] := by
            have := congrArg String.data hempty
            simpa using this
          rw [hnil] at htake
          simp at htake
          omega
    · intro hno
      cases hlast : strLastIndex pwd.toList (convertPath pkgName).toList with
      | none =>
        unfold findGosrc
        rw [hlast]
      | some idx =>
        have hgo : findGosrc pwd pkgName =
            (if idx ≤ 1 then "" else
              String.mk (pwd.toList.take (idx - 1))) := by
          unfold findGosrc
          rw [hlast]
        obtain ⟨h1, h2, h3⟩ := lastIndexAux_some _ _ _ _ hlast
        by_cases hle : idx ≤ 1
        · rw [hgo, if_pos hle]
        · exact absurd ⟨idx, by omega, h2, h1⟩ hno
  · intro i hi2 hilen him hgreatest
    cases hlast : strLastIndex pwd.toList (convertPath pkgName).toList with
    | none =>
      have hf := lastIndexAux_none _ _ _ hlast i hilen
      rw [him] at hf
      exact absurd hf (by simp)
    | some idx =>
      have hgo : findGosrc pwd pkgName =
          (if idx ≤ 1 then "" else
            String.mk (pwd.toList.take (idx - 1))) := by
        unfold findGosrc
        rw [hlast]
      obtain ⟨h1, h2, h3⟩ := lastIndexAux_some _ _ _ _ hlast
      have hii : idx = i := by
        by_cases hlt : idx < i
        · have hf := h3 i hlt hilen
          rw [him] at hf
          exact absurd hf (by simp)
        · by_cases hgt : i < idx
          · have hf := hgreatest idx hgt h2
            rw [h1] at hf
            exact absurd hf (by simp)
          · omega
      subst hii
      rw [hgo, if_neg (by omega)]

/-- Witness for `findGosrc_spec`: applying the greatest-occurrence clause at
pwd = "ab/cd/ef", package path "cd", occurrence position 3. -/
theorem findGosrc_spec_witness :
    findGosrc "ab/cd/ef" "cd" = String.mk ("ab/cd/ef".toList.take 2) :=
  (findGosrc_spec "ab/cd/ef" "cd").2 3 (by decide) (by decide) (by decide)
    (by
      intro j h3 h8
      have hlen : ("ab/cd/ef".toList.length) = 8 := rfl
      rw [hlen] at h8
      interval_cases j <;> decide)

/-!
## The output parser: the loop of `runAndStoreBenches`
(rebench.go lines 310-343)

Only the parsing of the captured `go test` output text is modelled; the
subprocess invocation (lines 299-308) is I/O.
-/

/-- `strconv.ParseUint(s, 10, 64)`: non-empty all-digit strings below 2^64;
anything else (including overflow, Go's ErrRange) is an error. -/
def parseUint64 (s : List Char) : Option Nat :=
  if s = [] then none
  else if s.all Char.isDigit then
    let n := s.foldl (fun acc c => acc * 10 + (c.toNat - 48)) 0
    if n < 2 ^ 64 then some n else none
  else none

/-- The cutset of `strings.TrimRight(result[2], " ns/op")`: TrimRight removes
trailing characters drawn from this set, not the literal suffix. -/
def cutsetNsOp : List Char := [' ', 'n', 's', '/', 'o', 'p']

/-- `strings.TrimRight(s, cutset)`. -/
def trimRightCutset (s : List Char) (cutset : List Char) : List Char :=
  (s.reverse.dropWhile (fun c => cutset.contains c)).reverse

/-- `strings.TrimSpace`. -/
def trimSpace (s : List Char) : List Char :=
  ((s.dropWhile Char.isWhitespace).reverse.dropWhile Char.isWhitespace).reverse

/-- Lines 318-322: split the line on tabs and trim every field. -/
def lineResult (line : List Char) : List (List Char) :=
  (splitChar '\t' line).map trimSpace

/-- Guard of line 324: fewer than 3 fields, or first field `"?"`. -/
def lineSkipped (line : List Char) : Bool :=
  decide ((lineResult line).length < 3) ||
    decide ((lineResult line).getD 0 [] = ['?'])

/-- A benchmark measurement line (line 328): not skipped, first field starts
with `Benchmark`. -/
def lineIsBench (line : List Char) : Bool :=
  !lineSkipped line &&
    List.isPrefixOf "Benchmark".toList ((lineResult line).getD 0 [])

/-- A flush line (line 337): not skipped, not a measurement, first field
exactly `"ok"`. -/
def lineFlushes (line : List Char) : Bool :=
  !lineSkipped line &&
    !List.isPrefixOf "Benchmark".toList ((lineResult line).getD 0 []) &&
    decide ((lineResult line).getD 0 [] = ['o', 'k'])

/-- Lines 329-330: the timing field with its trailing unit characters
stripped, parsed as uint64. -/
def lineTiming (line : List Char) : Option Nat :=
  parseUint64 (trimRightCutset ((lineResult line).getD 2 []) cutsetNsOp)

/-- The parsing loop of lines 317-341 over the split lines: `record`
accumulates flushed packages, `curr` the measurements since the last flush;
a timing that fails to parse aborts the whole parse (lines 331-334).
Measurements still in `curr` when the lines run out are dropped
(line 343 returns only `record`). -/
def parseLines : List (List Char) → AMap (AMap Nat) → AMap Nat →
    Except String (AMap (AMap Nat))
  | [], record, _curr => Except.ok record
  | line :: rest, record, curr =>
    if lineSkipped line then parseLines rest record curr
    else if List.isPrefixOf "Benchmark".toList ((lineResult line).getD 0 [])
    then
      match lineTiming line with
      | none => Except.error "Couldn't convert benchmark time to uint64"
      | some t =>
        parseLines rest record
          (mapInsert curr (String.mk ((lineResult line).getD 0 [])) t)
    else if (lineResult line).getD 0 [] = ['o', 'k'] then
      parseLines rest
        (mapInsert record (String.mk ((lineResult line).getD 1 [])) curr) []
    else parseLines rest record curr

/-- Parser entry (lines 310-316): split the captured output on newlines and
run the loop with empty accumulators. -/
def parseBenchOutput (out : String) : Except String (AMap (AMap Nat)) :=
  parseLines (splitChar '\n' out.toList) [] []

/-- Lines 58-67 of `rebench`: a parse error aborts with return code `-1`
before any comparison or file write; an empty record returns 0; `none` means
processing continues. -/
def rebenchEarly (parsed : Except String (AMap (AMap Nat))) : Option Int :=
  match parsed with
  | Except.error _ => some (-1)
  | Except.ok record => if record.length = 0 then some 0 else none

/-- One step of the parsing loop, recast through the line predicates. -/
theorem parseLines_cons (line : List Char) (rest : List (List Char))
    (record : AMap (AMap Nat)) (curr : AMap Nat) :
    parseLines (line :: rest) record curr =
      (if lineIsBench line then
        match lineTiming line with
        | none => Except.error "Couldn't convert benchmark time to uint64"
        | some t =>
          parseLines rest record
            (mapInsert curr (String.mk ((lineResult line).getD 0 [])) t)
      else if lineFlushes line then
        parseLines rest
          (mapInsert record (String.mk ((lineResult line).getD 1 [])) curr) []
      else parseLines rest record curr) := by
  by_cases hskip : lineSkipped line = true
  · have hb : lineIsBench line = false := by
      unfold lineIsBench
      rw [hskip]
      rfl
    have hf : lineFlushes line = false := by
      unfold lineFlushes
      rw [hskip]
      rfl
    simp only [parseLines]
    rw [if_pos hskip, if_neg (by rw [hb]; exact Bool.false_ne_true),
      if_neg (by rw [hf]; exact Bool.false_ne_true)]
  · have hskipf : lineSkipped line = false := Bool.eq_false_iff.mpr hskip
    by_cases hpre : List.isPrefixOf "Benchmark".toList
        ((lineResult line).getD 0 []) = true
    · have hb : lineIsBench line = true := by
        unfold lineIsBench
        rw [hskipf, hpre]
        rfl
      simp only [parseLines]
      rw [if_neg hskip, if_pos hpre, if_pos hb]
    · have hpref : List.isPrefixOf "Benchmark".toList
          ((lineResult line).getD 0 []) = false := Bool.eq_false_iff.mpr hpre
      have hb : lineIsBench line = false := by
        unfold lineIsBench
        rw [hpref]
        exact Bool.and_false _
      by_cases hok : (lineResult line).getD 0 [] = ['o', 'k']
      · have hf : lineFlushes line = true := by
          unfold lineFlushes
          rw [hskipf, hpref, decide_eq_true hok]
          rfl
        simp only [parseLines]
        rw [if_neg hskip, if_neg hpre, if_pos hok,
          if_neg (by rw [hb]; exact Bool.false_ne_true), if_pos hf]
      · have hf : lineFlushes line = false := by
          unfold lineFlushes
          rw [decide_eq_false hok]
          simp
        simp only [parseLines]
        rw [if_neg hskip, if_neg hpre, if_neg hok,
          if_neg (by rw [hb]; exact Bool.false_ne_true),
          if_neg (by rw [hf]; exact Bool.false_ne_true)]

theorem parseLines_error_of_bad (lines : List (List Char))
    (record : AMap (AMap Nat)) (curr : AMap Nat)
    (h : ∃ line ∈ lines, lineIsBench line = true ∧ lineTiming line = none) :
    ∃ e, parseLines lines record curr = Except.error e := by
  induction lines generalizing record curr with
  | nil => simp at h
  | cons l rest ih =>
    obtain ⟨line, hmem, hb, ht⟩ := h
    rcases List.mem_cons.mp hmem with heq | hmem'
    · subst heq
      refine ⟨"Couldn't convert benchmark time to uint64", ?_⟩
      rw [parseLines_cons, if_pos hb, ht]
    · have hrest : ∃ line ∈ rest, lineIsBench line = true ∧
          lineTiming line = none := ⟨line, hmem', hb, ht⟩
      by_cases hlb : lineIsBench l = true
      · cases htl : lineTiming l with
        | none =>
          refine ⟨"Couldn't convert benchmark time to uint64", ?_⟩
          rw [parseLines_cons, if_pos hlb, htl]
        | some t =>
          obtain ⟨e, he⟩ := ih _ _ hrest
          refine ⟨e, ?_⟩
          rw [parseLines_cons, if_pos hlb, htl]
          exact he
      · by_cases hlf : lineFlushes l = true
        · obtain ⟨e, he⟩ := ih _ _ hrest
          refine ⟨e, ?_⟩
          rw [parseLines_cons, if_neg hlb, if_pos hlf]
          exact he
        · obtain ⟨e, he⟩ := ih _ _ hrest
          refine ⟨e, ?_⟩
          rw [parseLines_cons, if_neg hlb, if_neg hlf]
          exact he

/-- C7: if any line of the output is a benchmark measurement whose stripped
timing field fails to parse as an unsigned 64-bit integer, the parser returns
an error (no record of any kind), and `rebench` aborts with return code -1,
before any comparison or file write happens. -/
theorem parseBenchOutput_aborts_on_bad_timing (out : String)
    (h : ∃ line ∈ splitChar '\n' out.toList,
      lineIsBench line = true ∧ lineTiming line = none) :
    (∃ e, parseBenchOutput out = Except.error e) ∧
      rebenchEarly (parseBenchOutput out) = some (-1) := by
  obtain ⟨e, he⟩ := parseLines_error_of_bad _ [] [] h
  have hpe : parseBenchOutput out = Except.error e := he
  refine ⟨⟨e, hpe⟩, ?_⟩
  rw [hpe]
  rfl

/-- Witness for `parseBenchOutput_aborts_on_bad_timing`: a measurement line
whose timing field is `"abc ns/op"`. -/
theorem parseBenchOutput_aborts_on_bad_timing_witness :
    (∃ e, parseBenchOutput "BenchmarkFoo\t100\tabc ns/op" =
        Except.error e) ∧
      rebenchEarly (parseBenchOutput "BenchmarkFoo\t100\tabc ns/op") =
        some (-1) :=
  parseBenchOutput_aborts_on_bad_timing "BenchmarkFoo\t100\tabc ns/op"
    (by decide)

/-- If no remaining line flushes, the accumulator `curr` can never reach the
record: the parse result does not depend on it. -/
theorem parseLines_curr_irrelevant (lines : List (List Char))
    (hnoflush : ∀ l ∈ lines, lineFlushes l = false) :
    ∀ record curr curr',
      parseLines lines record curr = parseLines lines record curr' := by
  induction lines with
  | nil => intro record curr curr'; rfl
  | cons l rest ih =>
    intro record curr curr'
    have hrest : ∀ l' ∈ rest, lineFlushes l' = false :=
      fun l' hl' => hnoflush l' (List.mem_cons_of_mem _ hl')
    have hlf : lineFlushes l = false := hnoflush l (List.mem_cons_self _ _)
    rw [parseLines_cons, parseLines_cons]
    by_cases hb : lineIsBench l = true
    · rw [if_pos hb, if_pos hb]
      cases htl : lineTiming l with
      | none => rfl
      | some t => exact ih hrest _ _ _
    · rw [if_neg hb, if_neg hb,
        if_neg (by rw [hlf]; exact Bool.false_ne_true),
        if_neg (by rw [hlf]; exact Bool.false_ne_true)]
      exact ih hrest _ _ _

/-- A successfully-parsed measurement line followed by no flush line leaves no
trace: parsing with the line present equals parsing with it removed. -/
theorem parseLines_discards_unflushed (pre : List (List Char))
    (line : List Char) (post : List (List Char))
    (hbench : lineIsBench line = true)
    (hok : (lineTiming line).isSome)
    (hnoflush : ∀ l ∈ post, lineFlushes l = false) :
    ∀ record curr,
      parseLines (pre ++ line :: post) record curr =
        parseLines (pre ++ post) record curr := by
  induction pre with
  | nil =>
    intro record curr
    obtain ⟨t, ht⟩ := Option.isSome_iff_exists.mp hok
    simp only [List.nil_append]
    rw [parseLines_cons, if_pos hbench, ht]
    exact parseLines_curr_irrelevant post hnoflush _ _ _
  | cons p ps ih =>
    intro record curr
    simp only [List.cons_append]
    rw [parseLines_cons, parseLines_cons]
    by_cases hb : lineIsBench p = true
    · rw [if_pos hb, if_pos hb]
      cases htl : lineTiming p with
      | none => rfl
      | some t => exact ih _ _
    · rw [if_neg hb, if_neg hb]
      by_cases hf : lineFlushes p = true
      · rw [if_pos hf, if_pos hf]
        exact ih _ _
      · rw [if_neg hf, if_neg hf]
        exact ih _ _

/-- C10: a benchmark measurement line (with a well-formed timing) that is not
followed, later in the output, by any flush line is silently discarded: the
parser's result is identical to the result on the output with that line
removed — it contributes to no package record and raises no error. -/
theorem parseBenchOutput_drops_unflushed_measurements (out : String)
    (pre : List (List Char)) (line : List Char) (post : List (List Char))
    (hsplit : splitChar '\n' out.toList = pre ++ line :: post)
    (hbench : lineIsBench line = true)
    (hok : (lineTiming line).isSome)
    (hnoflush : ∀ l ∈ post, lineFlushes l = false) :
    parseBenchOutput out = parseLines (pre ++ post) [] [] := by
  unfold parseBenchOutput
  rw [hsplit]
  exact parseLines_discards_unflushed pre line post hbench hok hnoflush _ _

/-- Witness for `parseBenchOutput_drops_unflushed_measurements`: one package
is flushed by its `ok` line, a later measurement is never flushed; the result
is the same as if the trailing measurement were absent. -/
theorem parseBenchOutput_drops_unflushed_measurements_witness :
    parseBenchOutput
        "BenchmarkA\t50\t40 ns/op\nok\tpkg\t1s\nBenchmarkB\t10\t7 ns/op" =
      parseLines ["BenchmarkA\t50\t40 ns/op".toList, "ok\tpkg\t1s".toList]
        [] [] :=
  parseBenchOutput_drops_unflushed_measurements
    "BenchmarkA\t50\t40 ns/op\nok\tpkg\t1s\nBenchmarkB\t10\t7 ns/op"
    ["BenchmarkA\t50\t40 ns/op".toList, "ok\tpkg\t1s".toList]
    "BenchmarkB\t10\t7 ns/op".toList []
    (by decide) (by decide) (by decide) (by decide)
